import Mathlib

/-!
Shallow embedding of src/main.py (multi-label tag classifier with a soft-F1
training loss) and verification of its specification.  Tensors of rank 2 are
lists of rows of exact rationals; reductions with axis=0 act per column,
K.mean and K.sum without axis act over the column index of the already
reduced vectors.  Float arithmetic is modelled by exact rational arithmetic;
the points where the float computation would leave the finite reals (NaN or
infinite values, always caused by a vanishing denominator here) are marked
by explicit boolean flags mirroring the tf.math.is_nan tests of the code.
-/

namespace Mewo

/-- A rank 2 tensor, as the list of its rows. -/
abbrev Mat := List (List ℚ)

/-- K.epsilon of the Keras backend, the fuzz factor 1e-7, as an exact rational. -/
def eps : ℚ := 1 / 10000000

/-- Column j of a matrix: the entry of every row at index j (0 past the end of a row). -/
def colV (A : Mat) (j : ℕ) : List ℚ := A.map (fun r => r.getD j 0)

/-- Sum of f over the first k naturals; models reductions over the column axis
of a vector of k per-column values. -/
def rsum (k : ℕ) (f : ℕ → ℚ) : ℚ := ((List.range k).map f).sum

/-- gp = K.sum(y_true, axis=0), the ground truth support, at column j. -/
def gp (yt : Mat) (j : ℕ) : ℚ := (colV yt j).sum

/-- tp = K.sum(y_true * y_pred, axis=0) at column j. -/
def tp (yt yp : Mat) (j : ℕ) : ℚ :=
  (List.zipWith (fun a b => a * b) (colV yt j) (colV yp j)).sum

/-- fp = K.sum((1 - y_true) * y_pred, axis=0) at column j. -/
def fp (yt yp : Mat) (j : ℕ) : ℚ :=
  (List.zipWith (fun a b => (1 - a) * b) (colV yt j) (colV yp j)).sum

/-- fn = K.sum(y_true * (1 - y_pred), axis=0) at column j. -/
def fn (yt yp : Mat) (j : ℕ) : ℚ :=
  (List.zipWith (fun a b => a * (1 - b)) (colV yt j) (colV yp j)).sum

/-- p = tp / (tp + fp + epsilon) at column j. -/
def pcol (yt yp : Mat) (j : ℕ) : ℚ :=
  tp yt yp j / (tp yt yp j + fp yt yp j + eps)

/-- r = tp / (tp + fn + epsilon) at column j. -/
def rcol (yt yp : Mat) (j : ℕ) : ℚ :=
  tp yt yp j / (tp yt yp j + fn yt yp j + eps)

/-- f1 = 2 p r / (p + r + epsilon) at column j, before the NaN substitution. -/
def f1raw (yt yp : Mat) (j : ℕ) : ℚ :=
  2 * pcol yt yp j * rcol yt yp j / (pcol yt yp j + rcol yt yp j + eps)

/-- Marks the columns at which the float computation of f1 leaves the finite
reals: one of the three denominators vanishes.  On matrices with nonnegative
entries this flag is always false (no denominator can vanish, and the float f1
is finite and not NaN); the tf.where of line 40 of the code substitutes 0
exactly at the columns where the float chain produced a non finite value. -/
def f1nan (yt yp : Mat) (j : ℕ) : Bool :=
  decide (tp yt yp j + fp yt yp j + eps = 0) ||
  decide (tp yt yp j + fn yt yp j + eps = 0) ||
  decide (pcol yt yp j + rcol yt yp j + eps = 0)

/-- Per-column f1 after the tf.where NaN substitution of f1_loss. -/
def f1col (yt yp : Mat) (j : ℕ) : ℚ := if f1nan yt yp j then 0 else f1raw yt yp j

/-- f1_loss of the code: 1 - K.mean(f1), the mean running over the k label columns. -/
def f1_loss (yt yp : Mat) (k : ℕ) : ℚ := 1 - rsum k (f1col yt yp) / k

/-- K.sum(gp), the total ground truth support over the k columns. -/
def gpSum (yt : Mat) (k : ℕ) : ℚ := rsum k (gp yt)

/-- Marks the columns at which the float computation of the weighted f1 term
leaves the finite reals: the f1 chain already did, or the total support in the
denominator vanishes. -/
def wnan (yt yp : Mat) (k j : ℕ) : Bool :=
  f1nan yt yp j || decide (gpSum yt k = 0)

/-- Per-column weighted term f1 * gp / K.sum(gp) after the tf.where NaN
substitution of weighted_f1_loss. -/
def wcol (yt yp : Mat) (k j : ℕ) : ℚ :=
  if wnan yt yp k j then 0 else f1raw yt yp j * gp yt j / gpSum yt k

/-- weighted_f1_loss of the code: 1 - K.sum(weighted_f1) over the k columns. -/
def weighted_f1_loss (yt yp : Mat) (k : ℕ) : ℚ := 1 - rsum k (wcol yt yp k)

/-- K.round rounds to the nearest integer with ties going to the even integer. -/
def roundQ (q : ℚ) : ℚ :=
  if q - (⌊q⌋ : ℚ) < 1/2 then (⌊q⌋ : ℚ)
  else if (1 : ℚ)/2 < q - (⌊q⌋ : ℚ) then (⌊q⌋ : ℚ) + 1
  else if ⌊q⌋ % 2 = 0 then (⌊q⌋ : ℚ) else (⌊q⌋ : ℚ) + 1

/-- K.round applied entrywise. -/
def roundMat (A : Mat) : Mat := A.map (fun r => r.map roundQ)

/-- The f1 monitoring metric of the code: 1 - f1_loss on rounded predictions. -/
def f1 (yt yp : Mat) (k : ℕ) : ℚ := 1 - f1_loss yt (roundMat yp) k

/-- The weighted_f1 monitoring metric of the code. -/
def weighted_f1 (yt yp : Mat) (k : ℕ) : ℚ := 1 - weighted_f1_loss yt (roundMat yp) k

/-- Python basic slicing t[a:b] of a rank 2 tensor acts on the FIRST axis:
it keeps rows a..b-1 and every column. -/
def rowSlice (A : Mat) (a b : ℕ) : Mat := (A.drop a).take (b - a)

/-- Column range a..b-1 of every row, as pandas iloc[:, a:b] and the slicing
y[:, s] of the per category metrics produce it. -/
def colSlice (A : Mat) (a b : ℕ) : Mat := A.map (fun r => (r.drop a).take (b - a))

/-- wf1_loss_p exactly as written in the code: y_true[slice(a, b)] is basic
slicing on the first axis, so each of the three calls sees a row range of the
batch, still k columns wide. -/
def wf1_loss_p (yt yp : Mat) (k : ℕ) : ℚ :=
  (weighted_f1_loss (rowSlice yt 0 90) (rowSlice yp 0 90) k +
   weighted_f1_loss (rowSlice yt 90 202) (rowSlice yp 90 202) k +
   weighted_f1_loss (rowSlice yt 202 248) (rowSlice yp 202 248) k) / 3

/-- The combined loss as the spec words it: weighted_f1_loss applied
independently to the column ranges genres 0..89, instruments 90..201 and
moods 202..247, averaged without weights. -/
def wf1_loss_p_spec (yt yp : Mat) : ℚ :=
  (weighted_f1_loss (colSlice yt 0 90) (colSlice yp 0 90) 90 +
   weighted_f1_loss (colSlice yt 90 202) (colSlice yp 90 202) 112 +
   weighted_f1_loss (colSlice yt 202 248) (colSlice yp 202 248) 46) / 3

/-- The mean of a list of rationals, for the spec side formulas. -/
def meanQ (l : List ℚ) : ℚ := l.sum / l.length

/-- f1_loss as the spec words it: per column precision, recall and f1 from the
batch sums, loss 1 - mean over the columns.  In exact rational arithmetic the
NaN to 0 substitution is the identity, see f1col_eq_raw. -/
def f1_loss_spec (yt yp : Mat) (k : ℕ) : ℚ :=
  1 - meanQ ((List.range k).map (fun j =>
    let pv := tp yt yp j / (tp yt yp j + fp yt yp j + eps)
    let rv := tp yt yp j / (tp yt yp j + fn yt yp j + eps)
    2 * pv * rv / (pv + rv + eps)))

/-- weighted_f1_loss as the spec words it: the per column f1 weighted by the
support of the column normalized by the total support. -/
def weighted_f1_loss_spec (yt yp : Mat) (k : ℕ) : ℚ :=
  1 - ((List.range k).map (fun j =>
    let pv := tp yt yp j / (tp yt yp j + fp yt yp j + eps)
    let rv := tp yt yp j / (tp yt yp j + fn yt yp j + eps)
    2 * pv * rv / (pv + rv + eps) * gp yt j)).sum / gpSum yt k

/-- The six fixed column ranges of the splitter. -/
def tagRanges : List (ℕ × ℕ) := [(0, 90), (90, 202), (202, 248), (248, 266), (266, 281), (281, 289)]

/-- splitter of the code: one sub-table per range, rows and their order
untouched.  The function is pure, the input table is only read. -/
def splitter (data : Mat) : List Mat := tagRanges.map (fun ab => colSlice data ab.1 ab.2)

/-- Width of the dense layer of step 1 of the fusion block, line 110 of the
code: int((w1 + w2) * 1.2), truncation toward zero of the product.  Modelled
with the exact product; at each of the width pairs the model builds (summed
widths 108, 127 and 54) the float64 product lies strictly between the same two
consecutive integers as the exact product, so exact and float truncation
agree there. -/
def firstDenseWidth (w1 w2 : ℕ) : ℕ := 6 * (w1 + w2) / 5

/-- The six input widths of the model. -/
def inputWidths : List ℕ := [90, 112, 46, 18, 15, 8]

/-- Parameters of one Keras Dense layer: one weight row and one bias per
output unit. -/
structure DenseP where
  w : List (List ℚ)
  b : List ℚ

/-- A Dense layer: each output unit is its bias plus the dot product of its
weight row with the input vector. -/
def applyDense (p : DenseP) (x : List ℚ) : List ℚ :=
  List.zipWith (fun bi wi => bi + (List.zipWith (fun a c => a * c) wi x).sum) p.b p.w

/-- Elementwise relu. -/
def reluQ (x : ℚ) : ℚ := max x 0

/-- The learnable parameters of one Residual Fusion Block: the three dense
layers of step 1, the width 400 dense layer of step 2 and the three projection
dense layers of step 3. -/
structure BlockParams where
  d0 : DenseP
  d1 : DenseP
  d2 : DenseP
  dmid : DenseP
  o0 : DenseP
  o1 : DenseP
  o2 : DenseP

/-- Steps 1 and 2 of the Residual Fusion Block: the three per group dense
layers with relu on the concatenated pairs, the concatenation, the width 400
dense layer with relu, and the Dropout layer drop (the identity at inference
time, a random mask at training time). -/
def blockSecond (p : BlockParams) (drop : List ℚ → List ℚ)
    (i0 i1 i2 i3 i4 i5 : List ℚ) : List ℚ :=
  let fa := (applyDense p.d0 (i0 ++ i3)).map reluQ
  let fb := (applyDense p.d1 (i1 ++ i4)).map reluQ
  let fc := (applyDense p.d2 (i2 ++ i5)).map reluQ
  drop ((applyDense p.dmid (fa ++ fb ++ fc)).map reluQ)

/-- The Residual Fusion Block at value level on one sample; act is the final
activation.  Step 3 adds the projection of the shared dropout output to the
ORIGINAL input of the group and only then applies act. -/
def block (p : BlockParams) (drop : List ℚ → List ℚ) (act : ℚ → ℚ)
    (i0 i1 i2 i3 i4 i5 : List ℚ) : List ℚ × List ℚ × List ℚ :=
  let second := blockSecond p drop i0 i1 i2 i3 i4 i5
  ((List.zipWith (fun a c => a + c) i0 (applyDense p.o0 second)).map act,
   (List.zipWith (fun a c => a + c) i1 (applyDense p.o1 second)).map act,
   (List.zipWith (fun a c => a + c) i2 (applyDense p.o2 second)).map act)

/-- Chunk sizes of np.array_split: len % n leading chunks of size
len / n + 1 followed by chunks of size len / n. -/
def arraySplitSizes (len n : ℕ) : List ℕ :=
  (List.range n).map (fun i => if i < len % n then len / n + 1 else len / n)

/-- Cuts a list into consecutive chunks of the given sizes. -/
def splitBySizes {α : Type} : List α → List ℕ → List (List α)
  | _, [] => []
  | xs, s :: ss => xs.take s :: splitBySizes (xs.drop s) ss

/-- np.array_split of a list into n ordered contiguous chunks. -/
def arraySplit {α : Type} (xs : List α) (n : ℕ) : List (List α) :=
  splitBySizes xs (arraySplitSizes xs.length n)

/-- res > 0.5 followed by astype(int): 1 exactly at the outputs strictly
above one half. -/
def threshold (v : List ℚ) : List ℕ := v.map (fun q => if (1 : ℚ)/2 < q then 1 else 0)

/-- One output row of the prediction file: the sample identifier followed by
the thresholded model outputs for that sample. -/
def predRow (f : List ℚ → List ℚ) (i : ℕ) (x : List ℚ) : List ℕ := i :: threshold (f x)

/-- The inference loop of the code: the identifiers and the feature rows are
array_split into n chunks with identical sizes, the trained function f is
applied to each row of a chunk, the thresholded rows of a chunk are prefixed
with their identifiers, and the chunks are emitted one after the other. -/
def inferenceRows (f : List ℚ → List ℚ) (ids : List ℕ) (feats : Mat) (n : ℕ) : List (List ℕ) :=
  (List.zipWith (fun idc xc => List.zipWith (predRow f) idc xc)
    (arraySplit ids n) (arraySplit feats n)).flatten

/-- State of the early stopping callback: best monitored value so far, epoch
it was reached at (the epoch whose weight snapshot would be restored) and the
count of consecutive epochs without improvement. -/
structure ESState where
  best : ℚ
  bestEpoch : ℕ
  wait : ℕ

/-- Modelled from the spec: the EarlyStopping callback (monitor val_loss,
min_delta 0, patience 8, restore_best_weights True) is keras library code and
not part of this repository; the repository only configures it at line 151.
Per the spec, an epoch improves when its validation loss is strictly below the
best seen one; otherwise the wait counter grows and training halts once it
reaches the patience.  Epochs are counted from 1; the result is the epoch
training halted at and the epoch whose snapshot is restored. -/
def esRun (patience : ℕ) : ℕ → ESState → List ℚ → ℕ × ℕ
  | epoch, st, [] => (epoch - 1, st.bestEpoch)
  | epoch, st, l :: ls =>
    if l < st.best then esRun patience (epoch + 1) ⟨l, epoch, 0⟩ ls
    else if patience ≤ st.wait + 1 then (epoch, st.bestEpoch)
    else esRun patience (epoch + 1) ⟨st.best, st.bestEpoch, st.wait + 1⟩ ls

/-- A whole training run on a list of per-epoch validation losses: the first
epoch always improves on the initial infinite best. -/
def earlyStopTrain (patience : ℕ) : List ℚ → ℕ × ℕ
  | [] => (0, 0)
  | l :: ls => esRun patience 2 ⟨l, 1, 0⟩ ls

/-- The run the code configures: patience 8 (the orchestrator feeds at most
600 epochs, so the loss list has length at most 600). -/
def trainRun (losses : List ℚ) : ℕ × ℕ := earlyStopTrain 8 losses

/-- The parameters left on the model after the run: the snapshot taken at the
best epoch, for any assignment w of parameter snapshots to epochs. -/
def restoredWeights {α : Type} (w : ℕ → α) (losses : List ℚ) : α := w (trainRun losses).2

/-! ### Helper lemmas about the column reductions -/

theorem rsum_zero (f : ℕ → ℚ) : rsum 0 f = 0 := rfl

theorem rsum_succ (k : ℕ) (f : ℕ → ℚ) : rsum (k + 1) f = rsum k f + f k := by
  simp [rsum, List.range_succ]

theorem rsum_congr {k : ℕ} {f g : ℕ → ℚ} (h : ∀ j < k, f j = g j) :
    rsum k f = rsum k g := by
  induction k with
  | zero => rfl
  | succ k ih =>
    rw [rsum_succ, rsum_succ, ih fun j hj => h j (Nat.lt_succ_of_lt hj),
      h k (Nat.lt_succ_self k)]

theorem rsum_const (k : ℕ) (c : ℚ) : rsum k (fun _ => c) = k * c := by
  induction k with
  | zero => simp [rsum_zero]
  | succ k ih => rw [rsum_succ, ih]; push_cast; ring

theorem rsum_nonneg {k : ℕ} {f : ℕ → ℚ} (h : ∀ j < k, 0 ≤ f j) : 0 ≤ rsum k f := by
  induction k with
  | zero => exact le_refl 0
  | succ k ih =>
    rw [rsum_succ]
    exact add_nonneg (ih fun j hj => h j (Nat.lt_succ_of_lt hj)) (h k (Nat.lt_succ_self k))

theorem rsum_le_rsum {k : ℕ} {f g : ℕ → ℚ} (h : ∀ j < k, f j ≤ g j) :
    rsum k f ≤ rsum k g := by
  induction k with
  | zero => exact le_refl 0
  | succ k ih =>
    rw [rsum_succ, rsum_succ]
    exact add_le_add (ih fun j hj => h j (Nat.lt_succ_of_lt hj)) (h k (Nat.lt_succ_self k))

theorem rsum_lt_rsum {k : ℕ} (hk : 1 ≤ k) {f g : ℕ → ℚ} (h : ∀ j < k, f j < g j) :
    rsum k f < rsum k g := by
  cases k with
  | zero => exact absurd hk (by norm_num)
  | succ k =>
    rw [rsum_succ, rsum_succ]
    exact add_lt_add_of_le_of_lt
      (rsum_le_rsum fun j hj => le_of_lt (h j (Nat.lt_succ_of_lt hj)))
      (h k (Nat.lt_succ_self k))

theorem rsum_div (k : ℕ) (f : ℕ → ℚ) (c : ℚ) :
    rsum k (fun j => f j / c) = rsum k f / c := by
  induction k with
  | zero => simp [rsum_zero]
  | succ k ih => rw [rsum_succ, rsum_succ, ih, add_div]

/-! ### Helper lemmas about the batch reductions -/

theorem zipSum_nonneg {f : ℚ → ℚ → ℚ} :
    ∀ {l₁ l₂ : List ℚ}, (∀ a ∈ l₁, ∀ b ∈ l₂, 0 ≤ f a b) → 0 ≤ (List.zipWith f l₁ l₂).sum
  | [], _, _ => by simp
  | _ :: _, [], _ => by simp
  | a :: l₁, b :: l₂, h => by
    simp only [List.zipWith_cons_cons, List.sum_cons]
    exact add_nonneg (h a (by simp) b (by simp))
      (zipSum_nonneg fun x hx y hy => h x (by simp [hx]) y (by simp [hy]))

theorem zipSum_add (f g : ℚ → ℚ → ℚ) :
    ∀ (l₁ l₂ : List ℚ),
      (List.zipWith f l₁ l₂).sum + (List.zipWith g l₁ l₂).sum
        = (List.zipWith (fun a b => f a b + g a b) l₁ l₂).sum
  | [], _ => by simp
  | _ :: _, [] => by simp
  | a :: l₁, b :: l₂ => by
    simp only [List.zipWith_cons_cons, List.sum_cons]
    rw [← zipSum_add f g l₁ l₂]; ring

theorem getD_mem_or_zero : ∀ (l : List ℚ) (j : ℕ), l.getD j 0 ∈ l ∨ l.getD j 0 = 0
  | [], _ => Or.inr rfl
  | a :: l, 0 => Or.inl (by rw [List.getD_cons_zero]; exact List.mem_cons_self a l)
  | a :: l, j + 1 => by
    rw [List.getD_cons_succ]
    rcases getD_mem_or_zero l j with h | h
    · exact Or.inl (List.mem_cons_of_mem a h)
    · exact Or.inr h

/-- Every entry of a column satisfies any property that holds of the matrix
entries and of 0 (the out of range default). -/
theorem colV_entry {P : ℚ → Prop} (hP0 : P 0) {A : Mat}
    (hA : ∀ r ∈ A, ∀ x ∈ r, P x) (j : ℕ) : ∀ x ∈ colV A j, P x := by
  intro x hx
  simp only [colV, List.mem_map] at hx
  obtain ⟨r, hr, rfl⟩ := hx
  rcases getD_mem_or_zero r j with h | h
  · exact hA r hr _ h
  · rw [h]; exact hP0

theorem zip_self_tp {l : List ℚ} (h : ∀ a ∈ l, a = 0 ∨ a = 1) :
    (List.zipWith (fun a b => a * b) l l).sum = l.sum := by
  induction l with
  | nil => simp
  | cons a l ih =>
    simp only [List.zipWith_cons_cons, List.sum_cons]
    rw [ih fun x hx => h x (by simp [hx])]
    rcases h a (by simp) with rfl | rfl <;> ring

theorem zip_self_fp {l : List ℚ} (h : ∀ a ∈ l, a = 0 ∨ a = 1) :
    (List.zipWith (fun a b => (1 - a) * b) l l).sum = 0 := by
  induction l with
  | nil => simp
  | cons a l ih =>
    simp only [List.zipWith_cons_cons, List.sum_cons]
    rw [ih fun x hx => h x (by simp [hx])]
    rcases h a (by simp) with rfl | rfl <;> ring

theorem zip_self_fn {l : List ℚ} (h : ∀ a ∈ l, a = 0 ∨ a = 1) :
    (List.zipWith (fun a b => a * (1 - b)) l l).sum = 0 := by
  induction l with
  | nil => simp
  | cons a l ih =>
    simp only [List.zipWith_cons_cons, List.sum_cons]
    rw [ih fun x hx => h x (by simp [hx])]
    rcases h a (by simp) with rfl | rfl <;> ring

/-- The sum of a list of entries of {0, 1} is 0 or at least 1. -/
theorem sum01_cases : ∀ {l : List ℚ}, (∀ a ∈ l, a = 0 ∨ a = 1) → l.sum = 0 ∨ 1 ≤ l.sum
  | [], _ => Or.inl rfl
  | a :: l, h => by
    have hl := sum01_cases (l := l) fun x hx => h x (List.mem_cons_of_mem a hx)
    simp only [List.sum_cons]
    rcases h a (by simp) with rfl | rfl
    · rcases hl with h0 | h1
      · rw [h0]; exact Or.inl (by norm_num)
      · exact Or.inr (by linarith)
    · rcases hl with h0 | h1
      · rw [h0]; exact Or.inr (by norm_num)
      · exact Or.inr (by linarith)

/-! ### The NaN substitutions are the identity in exact rational arithmetic:
at a flagged column the already computed value is 0 because division by zero
is 0 in ℚ, which is also the value the tf.where substitutes for it. -/

theorem f1raw_zero_of_nan {yt yp : Mat} {j : ℕ} (h : f1nan yt yp j = true) :
    f1raw yt yp j = 0 := by
  simp only [f1nan, Bool.or_eq_true, decide_eq_true_eq] at h
  rcases h with (h | h) | h
  · have hp : pcol yt yp j = 0 := by rw [pcol, h, div_zero]
    rw [f1raw, hp]; simp
  · have hr : rcol yt yp j = 0 := by rw [rcol, h, div_zero]
    rw [f1raw, hr]; simp
  · rw [f1raw, h, div_zero]

theorem f1col_eq_raw (yt yp : Mat) (j : ℕ) : f1col yt yp j = f1raw yt yp j := by
  cases h : f1nan yt yp j
  · simp [f1col, h]
  · simp [f1col, h, f1raw_zero_of_nan h]

theorem wcol_eq_raw (yt yp : Mat) (k j : ℕ) :
    wcol yt yp k j = f1raw yt yp j * gp yt j / gpSum yt k := by
  cases h : wnan yt yp k j
  · simp [wcol, h]
  · rw [wcol, h, if_pos rfl]
    have h2 := h
    simp only [wnan, Bool.or_eq_true, decide_eq_true_eq] at h2
    rcases h2 with h2 | h2
    · rw [f1raw_zero_of_nan h2]; simp
    · rw [h2, div_zero]

/-! ### C5: the loss computations match the spec formulas -/

theorem rsum_eq_range_map_sum (k : ℕ) (f : ℕ → ℚ) :
    rsum k f = ((List.range k).map f).sum := rfl

/-- C5: for every pair of matrices and every column count k, f1_loss computes
per column tp, fp, fn summed over the batch axis, p = tp/(tp+fp+eps),
r = tp/(tp+fn+eps), f1 = 2pr/(p+r+eps), NaN columns replaced by 0, and
returns 1 - mean(f1) over the k columns; weighted_f1_loss uses the same per
column quantities and returns 1 - sum of f1 * gp / sum(gp). -/
theorem losses_match_spec_formulas (yt yp : Mat) (k : ℕ) :
    f1_loss yt yp k = f1_loss_spec yt yp k ∧
    weighted_f1_loss yt yp k = weighted_f1_loss_spec yt yp k := by
  constructor
  · rw [f1_loss, f1_loss_spec, meanQ]
    have hmap : List.map (f1col yt yp) (List.range k)
        = List.map (fun j =>
            let pv := tp yt yp j / (tp yt yp j + fp yt yp j + eps)
            let rv := tp yt yp j / (tp yt yp j + fn yt yp j + eps)
            2 * pv * rv / (pv + rv + eps)) (List.range k) :=
      List.map_congr_left fun j _ => by simp only [f1col_eq_raw, f1raw, pcol, rcol]
    rw [List.length_map, List.length_range, rsum_eq_range_map_sum, hmap]
  · rw [weighted_f1_loss, weighted_f1_loss_spec]
    have h1 : rsum k (wcol yt yp k)
        = rsum k (fun j => f1raw yt yp j * gp yt j / gpSum yt k) :=
      rsum_congr fun j _ => wcol_eq_raw yt yp k j
    have hmap : List.map (fun j => f1raw yt yp j * gp yt j) (List.range k)
        = List.map (fun j =>
            let pv := tp yt yp j / (tp yt yp j + fp yt yp j + eps)
            let rv := tp yt yp j / (tp yt yp j + fn yt yp j + eps)
            2 * pv * rv / (pv + rv + eps) * gp yt j) (List.range k) :=
      List.map_congr_left fun j _ => by simp only [f1raw, pcol, rcol]
    rw [h1, rsum_div, rsum_eq_range_map_sum, hmap]

/-! ### C7: the splitter -/

theorem colSlice_length (data : Mat) (a b : ℕ) : (colSlice data a b).length = data.length := by
  simp [colSlice]

theorem colSlice_row_length {data : Mat} {a b : ℕ} (hb : ∀ r ∈ data, b ≤ r.length) :
    ∀ r ∈ colSlice data a b, r.length = b - a := by
  intro r hr
  simp only [colSlice, List.mem_map] at hr
  obtain ⟨r₀, h₀, rfl⟩ := hr
  have := hb r₀ h₀
  simp only [List.length_take, List.length_drop]
  omega

/-- C7: on a table whose rows all have at least 289 entries, splitter returns
exactly 6 sub tables; the i-th one maps every row, in order, to its column
range, hence has as many rows as the input; its rows have exactly
90, 112, 46, 18, 15 and 8 entries, summing to 289.  splitter is a pure
function, so the input table is untouched by construction. -/
theorem splitter_shapes (data : Mat) (h : ∀ r ∈ data, 289 ≤ r.length) :
    (splitter data).length = 6 ∧
    (∀ i, i < 6 → (splitter data).getD i []
        = data.map (fun r => (r.drop (tagRanges.getD i (0, 0)).1).take
            ((tagRanges.getD i (0, 0)).2 - (tagRanges.getD i (0, 0)).1))) ∧
    (∀ i, i < 6 → ((splitter data).getD i []).length = data.length) ∧
    (∀ i, i < 6 → ∀ r ∈ (splitter data).getD i [], r.length = inputWidths.getD i 0) ∧
    inputWidths.sum = 289 := by
  refine ⟨by simp [splitter, tagRanges], ?_, ?_, ?_, by decide⟩
  · intro i hi
    interval_cases i <;> rfl
  · intro i hi
    interval_cases i <;>
      exact colSlice_length data _ _
  · intro i hi
    interval_cases i <;>
      exact colSlice_row_length fun r hr => le_trans (by norm_num) (h r hr)

/-- Witness for C7 at a concrete one row table. -/
theorem splitter_shapes_witness : (splitter [List.replicate 289 (0 : ℚ)]).length = 6 :=
  (splitter_shapes [List.replicate 289 (0 : ℚ)]
    (by intro r hr; rw [List.mem_singleton] at hr; subst hr; rw [List.length_replicate])).1

/-! ### C2: the width of the first dense layers of the block -/

/-- C2 as stated is false: at the first group the summed input width is
90 + 18 = 108 and the layer width the code computes is int(108 * 1.2) = 129,
not round(1.2 * 108) = 130. -/
theorem first_dense_width_counterexample :
    firstDenseWidth (inputWidths.getD 0 0) (inputWidths.getD 3 0) = 129 ∧
    firstDenseWidth (inputWidths.getD 0 0) (inputWidths.getD 3 0) ≠ 130 := by
  decide

/-- C2 amended: the dense layer of step 1 has width int(1.2 (w1 + w2)), the
product truncated toward zero, which at the three group pairs of the model
gives widths 129, 152 and 64. -/
theorem first_dense_width_trunc (w1 w2 : ℕ) :
    (firstDenseWidth w1 w2 : ℚ) ≤ 6/5 * ((w1 : ℚ) + w2) ∧
    6/5 * ((w1 : ℚ) + w2) < firstDenseWidth w1 w2 + 1 ∧
    firstDenseWidth (inputWidths.getD 0 0) (inputWidths.getD 3 0) = 129 ∧
    firstDenseWidth (inputWidths.getD 1 0) (inputWidths.getD 4 0) = 152 ∧
    firstDenseWidth (inputWidths.getD 2 0) (inputWidths.getD 5 0) = 64 := by
  have hle : 5 * firstDenseWidth w1 w2 ≤ 6 * (w1 + w2) := by
    unfold firstDenseWidth; omega
  have hlt : 6 * (w1 + w2) < 5 * (firstDenseWidth w1 w2 + 1) := by
    unfold firstDenseWidth; omega
  have hle' : (5 : ℚ) * firstDenseWidth w1 w2 ≤ 6 * ((w1 : ℚ) + w2) := by
    exact_mod_cast hle
  have hlt' : (6 : ℚ) * ((w1 : ℚ) + w2) < 5 * ((firstDenseWidth w1 w2 : ℚ) + 1) := by
    exact_mod_cast hlt
  exact ⟨by linarith, by linarith, by decide, by decide, by decide⟩

/-! ### C8: step 3 of the Residual Fusion Block -/

theorem applyDense_length (p : DenseP) (x : List ℚ) :
    (applyDense p x).length = min p.b.length p.w.length := by
  simp [applyDense]

/-- C8: each of the three outputs of the block is act applied AFTER adding the
dense projection of the shared dropout output to the original input of the
group, and when the projection layer of group i has width_i units the output
has the width of input i. -/
theorem block_residual (p : BlockParams) (drop : List ℚ → List ℚ) (act : ℚ → ℚ)
    (i0 i1 i2 i3 i4 i5 : List ℚ)
    (h0b : p.o0.b.length = i0.length) (h0w : p.o0.w.length = i0.length)
    (h1b : p.o1.b.length = i1.length) (h1w : p.o1.w.length = i1.length)
    (h2b : p.o2.b.length = i2.length) (h2w : p.o2.w.length = i2.length) :
    ((block p drop act i0 i1 i2 i3 i4 i5).1
        = (List.zipWith (fun a c => a + c) i0
            (applyDense p.o0 (blockSecond p drop i0 i1 i2 i3 i4 i5))).map act ∧
      (block p drop act i0 i1 i2 i3 i4 i5).2.1
        = (List.zipWith (fun a c => a + c) i1
            (applyDense p.o1 (blockSecond p drop i0 i1 i2 i3 i4 i5))).map act ∧
      (block p drop act i0 i1 i2 i3 i4 i5).2.2
        = (List.zipWith (fun a c => a + c) i2
            (applyDense p.o2 (blockSecond p drop i0 i1 i2 i3 i4 i5))).map act) ∧
    ((block p drop act i0 i1 i2 i3 i4 i5).1.length = i0.length ∧
      (block p drop act i0 i1 i2 i3 i4 i5).2.1.length = i1.length ∧
      (block p drop act i0 i1 i2 i3 i4 i5).2.2.length = i2.length) := by
  refine ⟨⟨rfl, rfl, rfl⟩, ?_, ?_, ?_⟩ <;>
    simp [block, applyDense_length, h0b, h0w, h1b, h1w, h2b, h2w]

/-- A one unit dense layer for the C8 witness. -/
def oneDense : DenseP := ⟨[[1]], [0]⟩

/-- Block parameters with every dense layer of one unit, for the C8 witness. -/
def oneBlockP : BlockParams := ⟨oneDense, oneDense, oneDense, oneDense, oneDense, oneDense, oneDense⟩

/-- Witness for C8 at a concrete block of width one groups. -/
theorem block_residual_witness :
    (block oneBlockP id id [1] [1] [1] [1] [1] [1]).1.length = [(1 : ℚ)].length :=
  (block_residual oneBlockP id id [1] [1] [1] [1] [1] [1]
    rfl rfl rfl rfl rfl rfl).2.1

/-! ### Positivity of the regularized denominators -/

theorem eps_pos : 0 < eps := by norm_num [eps]

theorem zipWith_fun_congr {α β γ : Type} {f g : α → β → γ} (h : ∀ a b, f a b = g a b)
    (l₁ : List α) (l₂ : List β) : List.zipWith f l₁ l₂ = List.zipWith g l₁ l₂ := by
  have hf : f = g := funext fun a => funext fun b => h a b
  rw [hf]

theorem zipSum_eq_zero {f : ℚ → ℚ → ℚ} :
    ∀ {l₁ l₂ : List ℚ}, (∀ a ∈ l₁, ∀ b ∈ l₂, f a b = 0) → (List.zipWith f l₁ l₂).sum = 0
  | [], _, _ => by simp
  | _ :: _, [], _ => by simp
  | a :: l₁, b :: l₂, h => by
    simp only [List.zipWith_cons_cons, List.sum_cons]
    rw [h a (by simp) b (by simp),
      zipSum_eq_zero fun x hx y hy => h x (by simp [hx]) y (by simp [hy]), add_zero]

/-- tp + fp collapses to the batch sum of the predictions of the column. -/
theorem tp_add_fp (yt yp : Mat) (j : ℕ) :
    tp yt yp j + fp yt yp j
      = (List.zipWith (fun _ b => b) (colV yt j) (colV yp j)).sum := by
  rw [tp, fp, zipSum_add, zipWith_fun_congr (f := fun a b => a * b + (1 - a) * b)
    (g := fun _ b => b) (fun a b => by ring)]

/-- tp + fn collapses to the batch sum of the ground truth of the column. -/
theorem tp_add_fn (yt yp : Mat) (j : ℕ) :
    tp yt yp j + fn yt yp j
      = (List.zipWith (fun a _ => a) (colV yt j) (colV yp j)).sum := by
  rw [tp, fn, zipSum_add, zipWith_fun_congr (f := fun a b => a * b + a * (1 - b))
    (g := fun a _ => a) (fun a b => by ring)]

theorem denom1_pos {yp : Mat} (hyp : ∀ r ∈ yp, ∀ x ∈ r, 0 ≤ x) (yt : Mat) (j : ℕ) :
    0 < tp yt yp j + fp yt yp j + eps := by
  refine add_pos_of_nonneg_of_pos ?_ eps_pos
  rw [tp_add_fp]
  exact zipSum_nonneg fun a _ b hb => colV_entry (le_refl 0) hyp j b hb

theorem denom2_pos {yt : Mat} (hyt : ∀ r ∈ yt, ∀ x ∈ r, 0 ≤ x) (yp : Mat) (j : ℕ) :
    0 < tp yt yp j + fn yt yp j + eps := by
  refine add_pos_of_nonneg_of_pos ?_ eps_pos
  rw [tp_add_fn]
  exact zipSum_nonneg fun a ha b _ => colV_entry (le_refl 0) hyt j a ha

theorem tp_nonneg {yt yp : Mat} (hyt : ∀ r ∈ yt, ∀ x ∈ r, 0 ≤ x)
    (hyp : ∀ r ∈ yp, ∀ x ∈ r, 0 ≤ x) (j : ℕ) : 0 ≤ tp yt yp j :=
  zipSum_nonneg fun a ha b hb =>
    mul_nonneg (colV_entry (le_refl 0) hyt j a ha) (colV_entry (le_refl 0) hyp j b hb)

theorem pcol_nonneg {yt yp : Mat} (hyt : ∀ r ∈ yt, ∀ x ∈ r, 0 ≤ x)
    (hyp : ∀ r ∈ yp, ∀ x ∈ r, 0 ≤ x) (j : ℕ) : 0 ≤ pcol yt yp j :=
  div_nonneg (tp_nonneg hyt hyp j) (le_of_lt (denom1_pos hyp yt j))

theorem rcol_nonneg {yt yp : Mat} (hyt : ∀ r ∈ yt, ∀ x ∈ r, 0 ≤ x)
    (hyp : ∀ r ∈ yp, ∀ x ∈ r, 0 ≤ x) (j : ℕ) : 0 ≤ rcol yt yp j :=
  div_nonneg (tp_nonneg hyt hyp j) (le_of_lt (denom2_pos hyt yp j))

theorem denom3_pos {yt yp : Mat} (hyt : ∀ r ∈ yt, ∀ x ∈ r, 0 ≤ x)
    (hyp : ∀ r ∈ yp, ∀ x ∈ r, 0 ≤ x) (j : ℕ) :
    0 < pcol yt yp j + rcol yt yp j + eps :=
  add_pos_of_nonneg_of_pos (add_nonneg (pcol_nonneg hyt hyp j) (rcol_nonneg hyt hyp j)) eps_pos

theorem f1nan_false {yt yp : Mat} (hyt : ∀ r ∈ yt, ∀ x ∈ r, 0 ≤ x)
    (hyp : ∀ r ∈ yp, ∀ x ∈ r, 0 ≤ x) (j : ℕ) : f1nan yt yp j = false := by
  have h1 : tp yt yp j + fp yt yp j + eps ≠ 0 := ne_of_gt (denom1_pos hyp yt j)
  have h2 : tp yt yp j + fn yt yp j + eps ≠ 0 := ne_of_gt (denom2_pos hyt yp j)
  have h3 : pcol yt yp j + rcol yt yp j + eps ≠ 0 := ne_of_gt (denom3_pos hyt hyp j)
  simp [f1nan, h1, h2, h3]

theorem gp_nonneg {yt : Mat} (hyt : ∀ r ∈ yt, ∀ x ∈ r, 0 ≤ x) (j : ℕ) : 0 ≤ gp yt j :=
  List.sum_nonneg fun x hx => colV_entry (le_refl 0) hyt j x hx

/-! ### Bounds of the per column f1 on the label domain -/

theorem fp_nonneg {yt yp : Mat} (hyt : ∀ r ∈ yt, ∀ x ∈ r, x = 0 ∨ x = 1)
    (hyp : ∀ r ∈ yp, ∀ x ∈ r, 0 ≤ x ∧ x ≤ 1) (j : ℕ) : 0 ≤ fp yt yp j := by
  refine zipSum_nonneg fun a ha b hb => ?_
  have ha1 : a = 0 ∨ a = 1 := colV_entry (P := fun x => x = 0 ∨ x = 1) (Or.inl rfl) hyt j a ha
  have hb1 : 0 ≤ b ∧ b ≤ 1 :=
    colV_entry (P := fun x => 0 ≤ x ∧ x ≤ 1) ⟨le_refl 0, by norm_num⟩ hyp j b hb
  rcases ha1 with rfl | rfl
  · rw [sub_zero, one_mul]; exact hb1.1
  · rw [sub_self, zero_mul]

theorem fn_nonneg {yt yp : Mat} (hyt : ∀ r ∈ yt, ∀ x ∈ r, x = 0 ∨ x = 1)
    (hyp : ∀ r ∈ yp, ∀ x ∈ r, 0 ≤ x ∧ x ≤ 1) (j : ℕ) : 0 ≤ fn yt yp j := by
  refine zipSum_nonneg fun a ha b hb => ?_
  have ha1 : a = 0 ∨ a = 1 := colV_entry (P := fun x => x = 0 ∨ x = 1) (Or.inl rfl) hyt j a ha
  have hb1 : 0 ≤ b ∧ b ≤ 1 :=
    colV_entry (P := fun x => 0 ≤ x ∧ x ≤ 1) ⟨le_refl 0, by norm_num⟩ hyp j b hb
  rcases ha1 with rfl | rfl
  · rw [zero_mul]
  · rw [one_mul]; linarith [hb1.2]

theorem entries01_nonneg {yt : Mat} (hyt : ∀ r ∈ yt, ∀ x ∈ r, x = 0 ∨ x = 1) :
    ∀ r ∈ yt, ∀ x ∈ r, 0 ≤ x := by
  intro r hr x hx
  rcases hyt r hr x hx with rfl | rfl
  · exact le_refl 0
  · norm_num

theorem entries01_from_Icc {yp : Mat} (hyp : ∀ r ∈ yp, ∀ x ∈ r, 0 ≤ x ∧ x ≤ 1) :
    ∀ r ∈ yp, ∀ x ∈ r, 0 ≤ x :=
  fun r hr x hx => (hyp r hr x hx).1

theorem pcol_le_one {yt yp : Mat} (hyt : ∀ r ∈ yt, ∀ x ∈ r, x = 0 ∨ x = 1)
    (hyp : ∀ r ∈ yp, ∀ x ∈ r, 0 ≤ x ∧ x ≤ 1) (j : ℕ) : pcol yt yp j ≤ 1 := by
  rw [pcol, div_le_one (denom1_pos (entries01_from_Icc hyp) yt j)]
  have := fp_nonneg hyt hyp j
  have := eps_pos
  linarith

theorem rcol_le_one {yt yp : Mat} (hyt : ∀ r ∈ yt, ∀ x ∈ r, x = 0 ∨ x = 1)
    (hyp : ∀ r ∈ yp, ∀ x ∈ r, 0 ≤ x ∧ x ≤ 1) (j : ℕ) : rcol yt yp j ≤ 1 := by
  rw [rcol, div_le_one (denom2_pos (entries01_nonneg hyt) yp j)]
  have := fn_nonneg hyt hyp j
  have := eps_pos
  linarith

theorem f1raw_nonneg {yt yp : Mat} (hyt : ∀ r ∈ yt, ∀ x ∈ r, 0 ≤ x)
    (hyp : ∀ r ∈ yp, ∀ x ∈ r, 0 ≤ x) (j : ℕ) : 0 ≤ f1raw yt yp j := by
  rw [f1raw]
  refine div_nonneg ?_ (le_of_lt (denom3_pos hyt hyp j))
  have hp := pcol_nonneg hyt hyp j
  have hr := rcol_nonneg hyt hyp j
  positivity

theorem f1raw_le_one {yt yp : Mat} (hyt : ∀ r ∈ yt, ∀ x ∈ r, x = 0 ∨ x = 1)
    (hyp : ∀ r ∈ yp, ∀ x ∈ r, 0 ≤ x ∧ x ≤ 1) (j : ℕ) : f1raw yt yp j ≤ 1 := by
  have hyt0 := entries01_nonneg hyt
  have hyp0 := entries01_from_Icc hyp
  rw [f1raw, div_le_one (denom3_pos hyt0 hyp0 j)]
  have hp0 := pcol_nonneg hyt0 hyp0 j
  have hr0 := rcol_nonneg hyt0 hyp0 j
  have hp1 := pcol_le_one hyt hyp j
  have hr1 := rcol_le_one hyt hyp j
  have he := eps_pos
  nlinarith [mul_nonneg hp0 (sub_nonneg.mpr hr1), mul_nonneg hr0 (sub_nonneg.mpr hp1)]

/-! ### C10: the engine is safe on its domain -/

/-- C10: with nonnegative entries every regularized denominator of the per
column f1 chain is strictly positive, so the per column f1 is a finite
rational and the tf.where branch of f1_loss never substitutes; the branch of
weighted_f1_loss never substitutes either once the total support is positive;
and on label matrices in {0,1} against predictions in the unit interval both
losses are defined and land in the unit interval. -/
theorem loss_engine_safety (yt yp : Mat) (k : ℕ) :
    ((∀ r ∈ yt, ∀ x ∈ r, 0 ≤ x) → (∀ r ∈ yp, ∀ x ∈ r, 0 ≤ x) →
      (∀ j, 0 < tp yt yp j + fp yt yp j + eps ∧
        0 < tp yt yp j + fn yt yp j + eps ∧
        0 < pcol yt yp j + rcol yt yp j + eps ∧
        f1nan yt yp j = false) ∧
      (0 < gpSum yt k → ∀ j, wnan yt yp k j = false)) ∧
    ((∀ r ∈ yt, ∀ x ∈ r, x = 0 ∨ x = 1) → (∀ r ∈ yp, ∀ x ∈ r, 0 ≤ x ∧ x ≤ 1) → 1 ≤ k →
      (0 ≤ f1_loss yt yp k ∧ f1_loss yt yp k ≤ 1) ∧
      (0 ≤ weighted_f1_loss yt yp k ∧ weighted_f1_loss yt yp k ≤ 1)) := by
  constructor
  · intro hyt hyp
    constructor
    · intro j
      exact ⟨denom1_pos hyp yt j, denom2_pos hyt yp j, denom3_pos hyt hyp j,
        f1nan_false hyt hyp j⟩
    · intro hgp j
      rw [wnan, f1nan_false hyt hyp j]
      simp [ne_of_gt hgp]
  · intro hyt hyp hk
    have hyt0 := entries01_nonneg hyt
    have hyp0 := entries01_from_Icc hyp
    have hkpos : (0 : ℚ) < k := by exact_mod_cast hk
    have hcol0 : ∀ j, 0 ≤ f1col yt yp j := fun j => by
      rw [f1col_eq_raw]; exact f1raw_nonneg hyt0 hyp0 j
    have hcol1 : ∀ j, f1col yt yp j ≤ 1 := fun j => by
      rw [f1col_eq_raw]; exact f1raw_le_one hyt hyp j
    have hs0 : 0 ≤ rsum k (f1col yt yp) := rsum_nonneg fun j _ => hcol0 j
    have hs1 : rsum k (f1col yt yp) ≤ k := by
      have := rsum_le_rsum (k := k) (f := f1col yt yp) (g := fun _ => 1)
        fun j _ => hcol1 j
      rwa [rsum_const, mul_one] at this
    constructor
    · constructor
      · rw [f1_loss]
        have : rsum k (f1col yt yp) / k ≤ 1 := by
          rw [div_le_one hkpos]; exact hs1
        linarith
      · rw [f1_loss]
        have : 0 ≤ rsum k (f1col yt yp) / k := div_nonneg hs0 (le_of_lt hkpos)
        linarith
    · have hgps : 0 ≤ gpSum yt k := rsum_nonneg fun j _ => gp_nonneg hyt0 j
      rcases eq_or_lt_of_le hgps with hzero | hpos
      · have hall : rsum k (wcol yt yp k) = 0 := by
          have : ∀ j < k, wcol yt yp k j = (fun _ => (0 : ℚ)) j := by
            intro j _
            rw [wcol_eq_raw, ← hzero, div_zero]
          rw [rsum_congr this, rsum_const, mul_zero]
        rw [weighted_f1_loss, hall]
        norm_num
      · have h0 : ∀ j, 0 ≤ wcol yt yp k j := fun j => by
          rw [wcol_eq_raw]
          exact div_nonneg (mul_nonneg (f1raw_nonneg hyt0 hyp0 j) (gp_nonneg hyt0 j))
            (le_of_lt hpos)
        have hsum0 : 0 ≤ rsum k (wcol yt yp k) := rsum_nonneg fun j _ => h0 j
        have hsum1 : rsum k (wcol yt yp k) ≤ 1 := by
          have hcongr : ∀ j < k, wcol yt yp k j
              = (fun j => f1raw yt yp j * gp yt j / gpSum yt k) j :=
            fun j _ => wcol_eq_raw yt yp k j
          rw [rsum_congr hcongr, rsum_div, div_le_one hpos]
          exact rsum_le_rsum fun j _ =>
            mul_le_of_le_one_left (gp_nonneg hyt0 j) (f1raw_le_one hyt hyp j)
        constructor
        · rw [weighted_f1_loss]; linarith
        · rw [weighted_f1_loss]; linarith

/-- Witness for C10 at concrete one entry matrices. -/
theorem loss_engine_safety_witness :
    0 < tp [[(1 : ℚ)]] [[(1 : ℚ)]] 0 + fp [[(1 : ℚ)]] [[(1 : ℚ)]] 0 + eps := by
  have ha : ∀ r ∈ [[(1 : ℚ)]], ∀ x ∈ r, 0 ≤ x := by
    intro r hr x hx; fin_cases hr; fin_cases hx; norm_num
  exact ((((loss_engine_safety [[(1 : ℚ)]] [[(1 : ℚ)]] 1).1 ha ha).1) 0).1

/-! ### C4: columns with empty support contribute exactly zero -/

/-- C4: at a label column whose ground truth entries are all 0, tp and fn
vanish, so the per column f1 of f1_loss is genuinely 0 (with no denominator
vanishing, hence no NaN) and the weighted term of weighted_f1_loss is 0 as
well, for any predictions with values in the unit interval. -/
theorem empty_support_column_zero (yt yp : Mat) (k j : ℕ) (_hj : j < k)
    (hcol : ∀ r ∈ yt, r.getD j 0 = 0)
    (hyp01 : ∀ r ∈ yp, ∀ x ∈ r, 0 ≤ x ∧ x ≤ 1) :
    f1col yt yp j = 0 ∧ f1nan yt yp j = false ∧ wcol yt yp k j = 0 := by
  have hcv : ∀ a ∈ colV yt j, a = 0 := by
    intro a ha
    simp only [colV, List.mem_map] at ha
    obtain ⟨r, hr, rfl⟩ := ha
    exact hcol r hr
  have htp : tp yt yp j = 0 := zipSum_eq_zero fun a ha b _ => by rw [hcv a ha, zero_mul]
  have hfn : fn yt yp j = 0 := zipSum_eq_zero fun a ha b _ => by rw [hcv a ha, zero_mul]
  have hfp : 0 ≤ fp yt yp j := by
    refine zipSum_nonneg fun a ha b hb => ?_
    rw [hcv a ha, sub_zero, one_mul]
    exact (colV_entry (P := fun x => 0 ≤ x ∧ x ≤ 1) ⟨le_refl 0, by norm_num⟩ hyp01 j b hb).1
  have hpcol : pcol yt yp j = 0 := by rw [pcol, htp, zero_div]
  have hrcol : rcol yt yp j = 0 := by rw [rcol, htp, zero_div]
  have hraw : f1raw yt yp j = 0 := by
    rw [f1raw, hpcol, hrcol]
    norm_num
  refine ⟨by rw [f1col_eq_raw, hraw], ?_, by rw [wcol_eq_raw, hraw, zero_mul, zero_div]⟩
  have h1 : tp yt yp j + fp yt yp j + eps ≠ 0 := by
    have := eps_pos
    intro hc; rw [htp] at hc; linarith
  have h2 : tp yt yp j + fn yt yp j + eps ≠ 0 := by
    have := eps_pos
    intro hc; rw [htp, hfn] at hc; linarith
  have h3 : pcol yt yp j + rcol yt yp j + eps ≠ 0 := by
    have := eps_pos
    intro hc; rw [hpcol, hrcol] at hc; linarith
  simp [f1nan, h1, h2, h3]

/-- Witness for C4 at a concrete batch whose first column has no positive. -/
theorem empty_support_column_zero_witness :
    f1col [[0, 1]] [[1/2, 1]] 0 = 0 := by
  have hcol : ∀ r ∈ [[(0 : ℚ), 1]], r.getD 0 0 = 0 := by
    intro r hr; fin_cases hr; rfl
  have hyp01 : ∀ r ∈ [[(1 : ℚ)/2, 1]], ∀ x ∈ r, 0 ≤ x ∧ x ≤ 1 := by
    intro r hr x hx; fin_cases hr; fin_cases hx <;> norm_num
  exact (empty_support_column_zero [[0, 1]] [[1/2, 1]] 2 0 (by norm_num) hcol hyp01).1

/-! ### C3: the metrics on perfectly rounded predictions -/

theorem rsum_mul (k : ℕ) (c : ℚ) (f : ℕ → ℚ) :
    rsum k (fun j => c * f j) = c * rsum k f := by
  induction k with
  | zero => simp [rsum_zero]
  | succ k ih => rw [rsum_succ, rsum_succ, ih, mul_add]

/-- Bounds of 2 p p / (p + p + eps) at p = n / (n + eps) for a support of at
least one: strictly below 1 yet at least 1 - 2 eps. -/
theorem f1raw_self_bounds {n : ℚ} (hn : 1 ≤ n) :
    1 - 2 * eps ≤ 2 * (n / (n + eps)) * (n / (n + eps))
        / (n / (n + eps) + n / (n + eps) + eps) ∧
    2 * (n / (n + eps)) * (n / (n + eps))
        / (n / (n + eps) + n / (n + eps) + eps) < 1 := by
  have he := eps_pos
  have hne : 0 < n + eps := by linarith
  set p := n / (n + eps) with hp
  have hub : p < 1 := by rw [hp, div_lt_one hne]; linarith
  have hlb : 1 - eps ≤ p := by
    rw [hp, le_div_iff₀ hne]
    nlinarith [mul_le_mul_of_nonneg_left hn (le_of_lt he), sq_nonneg eps]
  have hp0 : 0 < p := by
    rw [hp]; exact div_pos (by linarith) hne
  have hd : 0 < p + p + eps := by linarith
  constructor
  · rw [le_div_iff₀ hd]
    nlinarith [sq_nonneg (p - (1 - eps)), sub_nonneg.mpr hlb]
  · rw [div_lt_one hd]
    nlinarith [mul_pos hp0 (sub_pos.mpr hub)]

/-- On a {0, 1} ground truth compared against itself, a column with positive
support has its per column f1 strictly below 1 and at least 1 - 2 eps. -/
theorem f1raw_self_col_bounds {yt : Mat} (hyt : ∀ r ∈ yt, ∀ x ∈ r, x = 0 ∨ x = 1)
    {j : ℕ} (hj : 0 < gp yt j) :
    1 - 2 * eps ≤ f1raw yt yt j ∧ f1raw yt yt j < 1 := by
  have hcv : ∀ a ∈ colV yt j, a = 0 ∨ a = 1 :=
    colV_entry (P := fun x => x = 0 ∨ x = 1) (Or.inl rfl) hyt j
  have htp : tp yt yt j = gp yt j := by rw [tp, gp]; exact zip_self_tp hcv
  have hfp : fp yt yt j = 0 := by rw [fp]; exact zip_self_fp hcv
  have hfn : fn yt yt j = 0 := by rw [fn]; exact zip_self_fn hcv
  have hn1 : 1 ≤ gp yt j := by
    rcases sum01_cases hcv with h0 | h1
    · rw [gp, h0] at hj; exact absurd hj (lt_irrefl 0)
    · rw [gp]; exact h1
  have hpcol : pcol yt yt j = gp yt j / (gp yt j + eps) := by
    rw [pcol, htp, hfp, add_zero]
  have hrcol : rcol yt yt j = gp yt j / (gp yt j + eps) := by
    rw [rcol, htp, hfn, add_zero]
  have hb := f1raw_self_bounds hn1
  rw [f1raw, hpcol, hrcol]
  exact hb

/-- C3 amended: when the rounded predictions equal the {0, 1} ground truth
and every one of the k label columns has at least one positive, the f1 and
weighted_f1 metrics are strictly below 1 -- exact equality with 1 fails
because of the eps regularization -- though both are within 2 eps of 1. -/
theorem metrics_near_one (yt yp : Mat) (k : ℕ) (hk : 1 ≤ k)
    (hyt : ∀ r ∈ yt, ∀ x ∈ r, x = 0 ∨ x = 1)
    (hround : roundMat yp = yt)
    (hsupp : ∀ j, j < k → 0 < gp yt j) :
    (1 - 2 * eps ≤ f1 yt yp k ∧ f1 yt yp k < 1) ∧
    (1 - 2 * eps ≤ weighted_f1 yt yp k ∧ weighted_f1 yt yp k < 1) := by
  have he := eps_pos
  have hkpos : (0 : ℚ) < k := by exact_mod_cast hk
  have hcolb : ∀ j, j < k → 1 - 2 * eps ≤ f1col yt yt j ∧ f1col yt yt j < 1 := by
    intro j hj
    rw [f1col_eq_raw]
    exact f1raw_self_col_bounds hyt (hsupp j hj)
  constructor
  · have hlo : (1 - 2 * eps) * k ≤ rsum k (f1col yt yt) := by
      have h1 : rsum k (fun _ => 1 - 2 * eps) ≤ rsum k (f1col yt yt) :=
        rsum_le_rsum fun j hj => (hcolb j hj).1
      rwa [rsum_const, mul_comm] at h1
    have hhi : rsum k (f1col yt yt) < k := by
      have h1 : rsum k (f1col yt yt) < rsum k (fun _ => 1) :=
        rsum_lt_rsum hk fun j hj => (hcolb j hj).2
      rwa [rsum_const, mul_one] at h1
    have hmean_lo : 1 - 2 * eps ≤ rsum k (f1col yt yt) / k := by
      rw [le_div_iff₀ hkpos]; exact hlo
    have hmean_hi : rsum k (f1col yt yt) / k < 1 := by
      rw [div_lt_one hkpos]; exact hhi
    rw [f1, hround, f1_loss]
    constructor <;> linarith
  · have hgps : 0 < gpSum yt k := by
      have h1 : rsum k (fun _ => (0 : ℚ)) < rsum k (gp yt) :=
        rsum_lt_rsum hk fun j hj => hsupp j hj
      rwa [rsum_const, mul_zero] at h1
    have hsum : rsum k (wcol yt yt k) = rsum k (fun j => f1raw yt yt j * gp yt j) / gpSum yt k := by
      have hc : ∀ j, j < k → wcol yt yt k j
          = (fun j => f1raw yt yt j * gp yt j / gpSum yt k) j :=
        fun j _ => wcol_eq_raw yt yt k j
      rw [rsum_congr hc, rsum_div]
    have hrawb : ∀ j, j < k → 1 - 2 * eps ≤ f1raw yt yt j ∧ f1raw yt yt j < 1 :=
      fun j hj => f1raw_self_col_bounds hyt (hsupp j hj)
    have hlo : (1 - 2 * eps) * gpSum yt k ≤ rsum k (fun j => f1raw yt yt j * gp yt j) := by
      have h1 : rsum k (fun j => (1 - 2 * eps) * gp yt j)
          ≤ rsum k (fun j => f1raw yt yt j * gp yt j) :=
        rsum_le_rsum fun j hj =>
          mul_le_mul_of_nonneg_right (hrawb j hj).1 (le_of_lt (hsupp j hj))
      rwa [rsum_mul] at h1
    have hhi : rsum k (fun j => f1raw yt yt j * gp yt j) < gpSum yt k := by
      refine rsum_lt_rsum hk fun j hj => ?_
      have h2 := mul_lt_mul_of_pos_right (hrawb j hj).2 (hsupp j hj)
      rwa [one_mul] at h2
    have hw_lo : 1 - 2 * eps ≤ rsum k (wcol yt yt k) := by
      rw [hsum, le_div_iff₀ hgps]; exact hlo
    have hw_hi : rsum k (wcol yt yt k) < 1 := by
      rw [hsum, div_lt_one hgps]; exact hhi
    rw [weighted_f1, hround, weighted_f1_loss]
    constructor <;> linarith

theorem roundQ_one : roundQ (1 : ℚ) = 1 := by
  rw [roundQ]
  norm_num

/-- C3 as stated is false: on the batch y_true = y_pred = [[1]] the rounded
predictions equal the ground truth and the single column has a positive,
yet neither metric evaluates to exactly 1: the eps regularization keeps both
strictly below 1. -/
theorem metrics_one_counterexample :
    f1 [[(1 : ℚ)]] [[(1 : ℚ)]] 1 ≠ 1 ∧ weighted_f1 [[(1 : ℚ)]] [[(1 : ℚ)]] 1 ≠ 1 := by
  have hround : roundMat [[(1 : ℚ)]] = [[(1 : ℚ)]] := by
    simp [roundMat, roundQ_one]
  have htp : tp [[(1 : ℚ)]] [[(1 : ℚ)]] 0 = 1 := by
    simp [tp, colV]
  have hfp : fp [[(1 : ℚ)]] [[(1 : ℚ)]] 0 = 0 := by
    simp [fp, colV]
  have hfn : fn [[(1 : ℚ)]] [[(1 : ℚ)]] 0 = 0 := by
    simp [fn, colV]
  have hgp : gp [[(1 : ℚ)]] 0 = 1 := by
    simp [gp, colV]
  have hpcol : pcol [[(1 : ℚ)]] [[(1 : ℚ)]] 0 = 10000000 / 10000001 := by
    rw [pcol, htp, hfp]; norm_num [eps]
  have hrcol : rcol [[(1 : ℚ)]] [[(1 : ℚ)]] 0 = 10000000 / 10000001 := by
    rw [rcol, htp, hfn]; norm_num [eps]
  have hlt : f1raw [[(1 : ℚ)]] [[(1 : ℚ)]] 0 < 1 := by
    rw [f1raw, hpcol, hrcol, eps]
    norm_num
  have hloss : f1_loss [[(1 : ℚ)]] [[(1 : ℚ)]] 1 = 1 - f1raw [[(1 : ℚ)]] [[(1 : ℚ)]] 0 := by
    rw [f1_loss, show rsum 1 (f1col [[(1 : ℚ)]] [[(1 : ℚ)]])
        = f1col [[(1 : ℚ)]] [[(1 : ℚ)]] 0 from by rw [rsum_succ, rsum_zero, zero_add],
      f1col_eq_raw]
    norm_num
  have hgps : gpSum [[(1 : ℚ)]] 1 = 1 := by
    rw [gpSum, rsum_succ, rsum_zero, zero_add, hgp]
  have hwloss : weighted_f1_loss [[(1 : ℚ)]] [[(1 : ℚ)]] 1
      = 1 - f1raw [[(1 : ℚ)]] [[(1 : ℚ)]] 0 := by
    rw [weighted_f1_loss, show rsum 1 (wcol [[(1 : ℚ)]] [[(1 : ℚ)]] 1)
        = wcol [[(1 : ℚ)]] [[(1 : ℚ)]] 1 0 from by rw [rsum_succ, rsum_zero, zero_add],
      wcol_eq_raw, hgp, hgps, mul_one, div_one]
  constructor
  · rw [f1, hround, hloss]
    intro hc
    have : f1raw [[(1 : ℚ)]] [[(1 : ℚ)]] 0 = 1 := by linarith
    linarith
  · rw [weighted_f1, hround, hwloss]
    intro hc
    have : f1raw [[(1 : ℚ)]] [[(1 : ℚ)]] 0 = 1 := by linarith
    linarith

/-- Witness for C3 amended at the one sample, one column batch. -/
theorem metrics_near_one_witness : f1 [[(1 : ℚ)]] [[(1 : ℚ)]] 1 < 1 := by
  have hround : roundMat [[(1 : ℚ)]] = [[(1 : ℚ)]] := by simp [roundMat, roundQ_one]
  have hyt : ∀ r ∈ [[(1 : ℚ)]], ∀ x ∈ r, x = 0 ∨ x = 1 := by
    intro r hr x hx; fin_cases hr; fin_cases hx; right; rfl
  have hsupp : ∀ j, j < 1 → 0 < gp [[(1 : ℚ)]] j := by
    intro j hj
    interval_cases j
    norm_num [gp, colV]
  exact ((metrics_near_one [[(1 : ℚ)]] [[(1 : ℚ)]] 1 (le_refl 1) hyt hround hsupp).1).2

/-! ### C1: the combined loss slices rows where the spec says columns -/

/-- A valid batch for the combined loss: one sample with all 248 labels set. -/
def onesMat : Mat := [List.replicate 248 (1 : ℚ)]

/-- The per column f1 of an all ones column of support one. -/
def onesF1 : ℚ :=
  2 * (10000000 / 10000001) * (10000000 / 10000001)
    / (10000000 / 10000001 + 10000000 / 10000001 + eps)

theorem onesF1_pos : 0 < onesF1 := by
  rw [onesF1, eps]; norm_num

theorem getD_replicate {n j : ℕ} (a d : ℚ) (hj : j < n) :
    (List.replicate n a).getD j d = a := by
  induction n generalizing j with
  | zero => exact absurd hj (Nat.not_lt_zero j)
  | succ n ih =>
    cases j with
    | zero => rfl
    | succ j => exact ih (Nat.lt_of_succ_lt_succ hj)

theorem colV_ones {w j : ℕ} (hj : j < w) :
    colV [List.replicate w (1 : ℚ)] j = [1] := by
  rw [colV, List.map_cons, List.map_nil, getD_replicate _ _ hj]

/-- Every column of an all ones batch against itself has tp 1, fp 0, fn 0
and support 1, hence per column f1 onesF1. -/
theorem f1raw_ones {w j : ℕ} (hj : j < w) :
    f1raw [List.replicate w (1 : ℚ)] [List.replicate w (1 : ℚ)] j = onesF1 ∧
    gp [List.replicate w (1 : ℚ)] j = 1 := by
  have hcv := colV_ones hj
  have htp : tp [List.replicate w (1 : ℚ)] [List.replicate w (1 : ℚ)] j = 1 := by
    rw [tp, hcv]; norm_num
  have hfp : fp [List.replicate w (1 : ℚ)] [List.replicate w (1 : ℚ)] j = 0 := by
    rw [fp, hcv]; norm_num
  have hfn : fn [List.replicate w (1 : ℚ)] [List.replicate w (1 : ℚ)] j = 0 := by
    rw [fn, hcv]; norm_num
  have hgp : gp [List.replicate w (1 : ℚ)] j = 1 := by
    rw [gp, hcv]; norm_num
  have hpcol : pcol [List.replicate w (1 : ℚ)] [List.replicate w (1 : ℚ)] j
      = 10000000 / 10000001 := by
    rw [pcol, htp, hfp]; norm_num [eps]
  have hrcol : rcol [List.replicate w (1 : ℚ)] [List.replicate w (1 : ℚ)] j
      = 10000000 / 10000001 := by
    rw [rcol, htp, hfn]; norm_num [eps]
  exact ⟨by rw [f1raw, hpcol, hrcol, onesF1], hgp⟩

/-- weighted_f1_loss of an all ones batch against itself, over its w columns. -/
theorem wf1loss_ones (w : ℕ) (hw : 1 ≤ w) :
    weighted_f1_loss [List.replicate w (1 : ℚ)] [List.replicate w (1 : ℚ)] w
      = 1 - onesF1 := by
  have hwq : ((w : ℚ)) ≠ 0 := by
    have : (0 : ℚ) < w := by exact_mod_cast hw
    exact ne_of_gt this
  have hgps : gpSum [List.replicate w (1 : ℚ)] w = w := by
    rw [gpSum, rsum_congr fun j hj => (f1raw_ones hj).2, rsum_const, mul_one]
  have hcols : ∀ j, j < w →
      wcol [List.replicate w (1 : ℚ)] [List.replicate w (1 : ℚ)] w j
        = (fun _ => onesF1 / w) j := by
    intro j hj
    rw [wcol_eq_raw, (f1raw_ones hj).1, (f1raw_ones hj).2, hgps, mul_one]
  rw [weighted_f1_loss, rsum_congr hcols, rsum_const, mul_div_cancel₀ _ hwq]

/-- weighted_f1_loss of the empty batch: zero total support makes every
weighted term NaN, the tf.where turns them into 0, the loss collapses to 1. -/
theorem wf1loss_nil (k : ℕ) : weighted_f1_loss ([] : Mat) ([] : Mat) k = 1 := by
  have hgps : gpSum ([] : Mat) k = 0 := by
    have h0 : ∀ j, j < k → gp ([] : Mat) j = (fun _ => (0 : ℚ)) j := fun j _ => rfl
    rw [gpSum, rsum_congr h0, rsum_const, mul_zero]
  have hw : ∀ j, j < k → wcol ([] : Mat) ([] : Mat) k j = (fun _ => (0 : ℚ)) j := by
    intro j _
    rw [wcol_eq_raw, hgps, div_zero]
  rw [weighted_f1_loss, rsum_congr hw, rsum_const, mul_zero, sub_zero]

theorem colSlice_ones {a b : ℕ} (hab : a ≤ b) (hb : b ≤ 248) :
    colSlice onesMat a b = [List.replicate (b - a) (1 : ℚ)] := by
  simp only [colSlice, onesMat, List.map_cons, List.map_nil, List.drop_replicate,
    List.take_replicate]
  have hmin : min (b - a) (248 - a) = b - a := by omega
  rw [hmin]

/-- C1: wf1_loss_p as coded slices the BATCH axis.  On the one sample batch
with all 248 labels set, the first row range keeps the whole batch while the
two others are empty batches whose weighted loss degenerates to 1, so the
coded loss is ((1 - onesF1) + 1 + 1) / 3 while the column sliced loss of the
spec is 1 - onesF1; the two disagree. -/
theorem wf1_loss_p_row_slice_eval :
    wf1_loss_p onesMat onesMat 248 = ((1 - onesF1) + 1 + 1) / 3 ∧
    wf1_loss_p_spec onesMat onesMat = 1 - onesF1 ∧
    wf1_loss_p onesMat onesMat 248 ≠ wf1_loss_p_spec onesMat onesMat := by
  have hs1 : rowSlice onesMat 0 90 = onesMat := by
    rw [rowSlice, List.drop_zero]
    exact List.take_of_length_le (by norm_num [onesMat])
  have hs2 : rowSlice onesMat 90 202 = ([] : Mat) := by
    rw [rowSlice, List.drop_eq_nil_of_le (by norm_num [onesMat])]
    exact List.take_nil
  have hs3 : rowSlice onesMat 202 248 = ([] : Mat) := by
    rw [rowSlice, List.drop_eq_nil_of_le (by norm_num [onesMat])]
    exact List.take_nil
  have h1 : wf1_loss_p onesMat onesMat 248 = ((1 - onesF1) + 1 + 1) / 3 := by
    rw [wf1_loss_p, hs1, hs2, hs3, wf1loss_nil,
      show onesMat = [List.replicate 248 (1 : ℚ)] from rfl,
      wf1loss_ones 248 (by norm_num)]
  have h2 : wf1_loss_p_spec onesMat onesMat = 1 - onesF1 := by
    rw [wf1_loss_p_spec, colSlice_ones (by norm_num) (by norm_num),
      colSlice_ones (by norm_num) (by norm_num), colSlice_ones (by norm_num) (by norm_num)]
    norm_num
    rw [wf1loss_ones 90 (by norm_num), wf1loss_ones 112 (by norm_num),
      wf1loss_ones 46 (by norm_num)]
    ring
  refine ⟨h1, h2, ?_⟩
  rw [h1, h2]
  have hpos := onesF1_pos
  intro heq
  field_simp at heq
  linarith

/-! ### C6: the batched inference pipeline -/

theorem sum_range_ite (n q r : ℕ) :
    ((List.range n).map (fun i => if i < r then q + 1 else q)).sum = n * q + min r n := by
  induction n with
  | zero => simp
  | succ n ih =>
    rw [List.range_succ, List.map_append, List.sum_append]
    simp only [List.map_cons, List.map_nil, List.sum_cons, List.sum_nil]
    rw [ih, Nat.succ_mul]
    by_cases h : n < r
    · rw [if_pos h, Nat.min_eq_right (Nat.le_of_lt h), Nat.min_eq_right (Nat.succ_le_of_lt h)]
      omega
    · rw [if_neg h, Nat.min_eq_left (Nat.le_of_not_lt h), Nat.min_eq_left (by omega)]
      omega

theorem arraySplitSizes_sum {len n : ℕ} (hn : 0 < n) : (arraySplitSizes len n).sum = len := by
  rw [arraySplitSizes, sum_range_ite]
  have hmod : len % n < n := Nat.mod_lt len hn
  have hdm := Nat.div_add_mod len n
  omega

theorem splitBySizes_length {α : Type} :
    ∀ (ss : List ℕ) (xs : List α), (splitBySizes xs ss).length = ss.length
  | [], xs => rfl
  | s :: ss, xs => by
    rw [splitBySizes, List.length_cons, List.length_cons,
      splitBySizes_length ss (xs.drop s)]

theorem splitBySizes_flatten {α : Type} :
    ∀ (ss : List ℕ) (xs : List α), (splitBySizes xs ss).flatten = xs.take ss.sum
  | [], xs => by simp [splitBySizes]
  | s :: ss, xs => by
    rw [splitBySizes, List.flatten_cons, splitBySizes_flatten ss (xs.drop s),
      List.sum_cons, List.take_add]

/-- np.array_split always returns exactly n chunks. -/
theorem arraySplit_length {α : Type} (xs : List α) (n : ℕ) :
    (arraySplit xs n).length = n := by
  rw [arraySplit, splitBySizes_length, arraySplitSizes, List.length_map, List.length_range]

/-- The n chunks of np.array_split concatenate back to the list: they
partition it in order. -/
theorem arraySplit_flatten {α : Type} (xs : List α) {n : ℕ} (hn : 0 < n) :
    (arraySplit xs n).flatten = xs := by
  rw [arraySplit, splitBySizes_flatten, arraySplitSizes_sum hn, List.take_length]

theorem zip_splitBySizes {α β γ : Type} (g : α → β → γ) :
    ∀ (ss : List ℕ) (as : List α) (bs : List β),
      (List.zipWith (fun ac bc => List.zipWith g ac bc)
          (splitBySizes as ss) (splitBySizes bs ss)).flatten
        = (List.zipWith g as bs).take ss.sum
  | [], as, bs => by simp [splitBySizes]
  | s :: ss, as, bs => by
    rw [splitBySizes, splitBySizes, List.zipWith_cons_cons, List.flatten_cons,
      zip_splitBySizes g ss (as.drop s) (bs.drop s), List.sum_cons,
      show List.zipWith g (as.take s) (bs.take s) = (List.zipWith g as bs).take s from
        (List.take_zipWith).symm,
      show List.zipWith g (as.drop s) (bs.drop s) = (List.zipWith g as bs).drop s from
        (List.drop_zipWith).symm,
      List.take_add]

theorem mem_zipWith {α β γ : Type} {g : α → β → γ} :
    ∀ {l₁ : List α} {l₂ : List β} {c : γ}, c ∈ List.zipWith g l₁ l₂ → ∃ a b, c = g a b
  | [], _, _, hc => by simp at hc
  | _ :: _, [], _, hc => by simp at hc
  | a :: l₁, b :: l₂, c, hc => by
    rw [List.zipWith_cons_cons, List.mem_cons] at hc
    rcases hc with hc | hc
    · exact ⟨a, b, hc⟩
    · exact mem_zipWith hc

theorem threshold_getD (v : List ℚ) (j : ℕ) (hj : j < v.length) :
    (threshold v).getD j 0 = if (1 : ℚ)/2 < v.getD j 0 then 1 else 0 := by
  induction v generalizing j with
  | nil => simp at hj
  | cons a l ih =>
    cases j with
    | zero => rfl
    | succ j => exact ih j (by simpa using hj)

/-- C6: the inference loop cuts the M rows into exactly 100 ordered contiguous
chunks that concatenate back to the input, and emits, in the original row
order, one row per sample made of its identifier followed by the 248
thresholded outputs, each 0 or 1, a label being 1 exactly when the model
output strictly exceeds one half. -/
theorem inference_pipeline_rows (f : List ℚ → List ℚ) (ids : List ℕ) (feats : Mat)
    (hlen : ids.length = feats.length) (hf : ∀ x, (f x).length = 248) :
    (arraySplit feats 100).length = 100 ∧
    (arraySplit feats 100).flatten = feats ∧
    inferenceRows f ids feats 100 = List.zipWith (predRow f) ids feats ∧
    (inferenceRows f ids feats 100).length = feats.length ∧
    (∀ row ∈ inferenceRows f ids feats 100,
      row.length = 249 ∧ ∀ b ∈ row.tail, b = 0 ∨ b = 1) ∧
    (∀ v : List ℚ, ∀ j, j < v.length →
      ((threshold v).getD j 0 = 1 ↔ (1 : ℚ)/2 < v.getD j 0)) := by
  have h100 : (0 : ℕ) < 100 := by norm_num
  have hrows : inferenceRows f ids feats 100 = List.zipWith (predRow f) ids feats := by
    rw [inferenceRows, arraySplit, arraySplit, hlen, zip_splitBySizes,
      arraySplitSizes_sum h100]
    have hlen2 : feats.length = (List.zipWith (predRow f) ids feats).length := by
      rw [List.length_zipWith, hlen, min_self]
    rw [hlen2, List.take_length]
  refine ⟨arraySplit_length feats 100, arraySplit_flatten feats h100, hrows, ?_, ?_, ?_⟩
  · rw [hrows, List.length_zipWith, hlen, min_self]
  · intro row hrow
    rw [hrows] at hrow
    obtain ⟨i, x, rfl⟩ := mem_zipWith hrow
    constructor
    · rw [predRow, List.length_cons, threshold, List.length_map, hf]
    · intro b hb
      rw [predRow, List.tail_cons, threshold] at hb
      rw [List.mem_map] at hb
      obtain ⟨q, _, rfl⟩ := hb
      by_cases hq : (1 : ℚ)/2 < q
      · rw [if_pos hq]; right; rfl
      · rw [if_neg hq]; left; rfl
  · intro v j hj
    rw [threshold_getD v j hj]
    by_cases hq : (1 : ℚ)/2 < v.getD j 0
    · rw [if_pos hq]; exact ⟨fun _ => hq, fun _ => rfl⟩
    · rw [if_neg hq]
      constructor
      · intro hc; exact absurd hc (by norm_num)
      · intro hc; exact absurd hc hq

/-- Witness for C6 at a one sample table and a constant model. -/
theorem inference_pipeline_rows_witness :
    (arraySplit ([[]] : Mat) 100).length = 100 :=
  (inference_pipeline_rows (fun _ => List.replicate 248 0) [5] [[]] rfl
    (fun x => by rw [List.length_replicate])).1

/-! ### C9: early stopping -/

/-- Running the callback over a segment with no strict improvement on the
current best: the wait counter fills up and training halts as soon as
patience - wait epochs of the segment have passed. -/
theorem esRun_flat (patience : ℕ) :
    ∀ (ls : List ℚ) (epoch : ℕ) (st : ESState),
      0 < patience - st.wait →
      patience - st.wait ≤ ls.length →
      (∀ i, i < patience - st.wait → st.best ≤ ls.getD i 0) →
      esRun patience epoch st ls = (epoch + (patience - st.wait) - 1, st.bestEpoch)
  | [], epoch, st, hd, hlen, _ => by
    rw [List.length_nil] at hlen
    omega
  | l :: ls, epoch, st, hd, hlen, hflat => by
    have h0 : st.best ≤ l := hflat 0 hd
    simp only [esRun, if_neg (not_lt.mpr h0)]
    by_cases hhalt : patience ≤ st.wait + 1
    · rw [if_pos hhalt]
      have hd1 : patience - st.wait = 1 := by omega
      rw [hd1, Nat.add_sub_cancel]
    · rw [if_neg hhalt]
      have hrec := esRun_flat patience ls (epoch + 1) ⟨st.best, st.bestEpoch, st.wait + 1⟩
        (by simp only []; omega)
        (by rw [List.length_cons] at hlen; simp only []; omega)
        (by intro i hi
            simp only [] at hi ⊢
            have := hflat (i + 1) (by omega)
            rwa [List.getD_cons_succ] at this)
      rw [hrec]
      have harith : epoch + 1 + (patience - (st.wait + 1)) - 1
          = epoch + (patience - st.wait) - 1 := by omega
      rw [show (⟨st.best, st.bestEpoch, st.wait + 1⟩ : ESState).bestEpoch = st.bestEpoch from rfl,
        harith]

/-- Running the callback over a prefix too short to exhaust the patience,
followed by a loss strictly below everything seen: the improvement resets the
state to that epoch. -/
theorem esRun_improve (patience : ℕ) :
    ∀ (pre : List ℚ) (epoch : ℕ) (st : ESState) (limp : ℚ) (rest : List ℚ),
      st.wait + pre.length < patience →
      (∀ x ∈ pre, limp < x) →
      limp < st.best →
      esRun patience epoch st (pre ++ limp :: rest)
        = esRun patience (epoch + pre.length + 1) ⟨limp, epoch + pre.length, 0⟩ rest
  | [], epoch, st, limp, rest, _, _, hst => by
    simp only [List.nil_append, List.length_nil, Nat.add_zero, esRun, if_pos hst]
  | x :: pre, epoch, st, limp, rest, hw, hpre, hst => by
    rw [List.cons_append]
    simp only [esRun]
    by_cases hx : x < st.best
    · rw [if_pos hx]
      have hrec := esRun_improve patience pre (epoch + 1) ⟨x, epoch, 0⟩ limp rest
        (by simp only []; rw [List.length_cons] at hw; omega)
        (fun y hy => hpre y (List.mem_cons_of_mem x hy))
        (hpre x (List.mem_cons_self x pre))
      rw [hrec, List.length_cons]
      have h1 : epoch + 1 + pre.length = epoch + (pre.length + 1) := by omega
      rw [h1]
    · rw [if_neg hx, if_neg (by rw [List.length_cons] at hw; omega)]
      have hrec := esRun_improve patience pre (epoch + 1)
        ⟨st.best, st.bestEpoch, st.wait + 1⟩ limp rest
        (by simp only []; rw [List.length_cons] at hw; omega)
        (fun y hy => hpre y (List.mem_cons_of_mem x hy))
        hst
      rw [hrec, List.length_cons]
      have h1 : epoch + 1 + pre.length = epoch + (pre.length + 1) := by omega
      rw [h1]

/-- C9: on any run whose validation loss improves for the last time at epoch 5
(strictly below the losses of epochs 1 to 4, and never beaten during the next
8 epochs), with the configured patience of 8 and at most 600 epochs, training
halts at epoch 13 and the parameters restored are the snapshot of epoch 5. -/
theorem early_stopping_scenario {α : Type} (w : ℕ → α) (a b c d e : ℚ) (rest : List ℚ)
    (hlen : 8 ≤ rest.length) (_hmax : rest.length ≤ 595)
    (himp : e < a ∧ e < b ∧ e < c ∧ e < d)
    (hflat : ∀ i, i < 8 → e ≤ rest.getD i 0) :
    trainRun (a :: b :: c :: d :: e :: rest) = (13, 5) ∧
    restoredWeights w (a :: b :: c :: d :: e :: rest) = w 5 := by
  have h1 : trainRun (a :: b :: c :: d :: e :: rest) = (13, 5) := by
    rw [trainRun, earlyStopTrain,
      show (b :: c :: d :: e :: rest) = [b, c, d] ++ e :: rest from rfl,
      esRun_improve 8 [b, c, d] 2 ⟨a, 1, 0⟩ e rest (by norm_num)
        (by intro x hx
            fin_cases hx
            · exact himp.2.1
            · exact himp.2.2.1
            · exact himp.2.2.2)
        himp.1]
    rw [show (2 : ℕ) + List.length [b, c, d] + 1 = 6 from rfl,
      show (2 : ℕ) + List.length [b, c, d] = 5 from rfl]
    rw [esRun_flat 8 rest 6 ⟨e, 5, 0⟩ (by norm_num) (by simpa using hlen)
      (by intro i hi; exact hflat i (by simpa using hi))]
    rfl
  exact ⟨h1, by rw [restoredWeights, h1]⟩

/-- Witness for C9 on a concrete loss sequence improving last at epoch 5. -/
theorem early_stopping_scenario_witness :
    trainRun (5 :: 4 :: 3 :: 2 :: 1 :: List.replicate 8 1) = (13, 5) := by
  have hflat : ∀ i, i < 8 → (1 : ℚ) ≤ (List.replicate 8 (1 : ℚ)).getD i 0 := by
    intro i hi
    rw [getD_replicate 1 0 hi]
  exact (early_stopping_scenario id 5 4 3 2 1 (List.replicate 8 1)
    (by rw [List.length_replicate]) (by rw [List.length_replicate]; norm_num)
    (by norm_num) hflat).1

end Mewo
